import Mathlib

/-!
Shallow embedding of the LRU cache of `src/lru/LRUCache.hpp`.

Modelling decisions, in one place:

* All `size_t` fields and parameters are `Nat`s; the two subtractions the
  source performs on `size_t` (`s - prev_size` in `insert`, and
  `maxSize_ + elasticity_ - cacheSize_`) as well as every addition and
  compound assignment are computed modulo `2 ^ 64` through `add64`/`sub64`,
  so unsigned wraparound is represented faithfully.
* `std::list<KeyValuePair>` (`keys_`, most-recently-used at the head) is a
  Lean `List`.  The hash map `cache_` stores, for every key in `keys_`, an
  iterator to its node; since the source updates the two containers in
  lockstep, the map is represented implicitly: a key is in the map exactly
  when an entry with that key is in `keys_`, and lookups are `List.find?`
  on `keys_`.  `splice` to the front of the list becomes "erase the found
  entry, cons it at the head".
* The remove callback (`removeCallback_` plus its fixed global context) is
  modelled as an optional Boolean-returning function on the entry: `false`
  means the C++ callback threw, which the source converts to
  `CallBackFailed`.  The insert callback only observes state (it receives
  `keys_.front()` after the mutation and the eviction pass and cannot
  change the cache), so its invocation is not part of the state
  transition; `insertCallbackArg` exposes the argument it would receive.
* C++ exceptions become an `Option LRUErr` component of each operation's
  result, paired with the state of the object at the moment of the throw,
  so that partially committed mutations (the non-transactional prune pass)
  are observable.
* `prune`'s eviction loop pops from the back of `keys_`; it is embedded by
  recursing over the reversed list.  When the loop guard holds on an empty
  list the C++ `keys_.back()` is undefined behaviour; the embedding stops
  there (this branch is unreachable from states whose `cacheSize_` equals
  the sum of the stored weights).
* `prune`'s `removedSize` return value is ignored by both of its callers
  (`insert` and `updateSize`) and is dropped; the Boolean component of
  `prune`'s result records whether the remove callback failed
  (`CallBackFailed`).
-/

namespace lru

/-- `2 ^ 64`, the modulus of `size_t` arithmetic on the original platform. -/
def W : Nat := 2 ^ 64

/-- `size_t` addition: `(a + b) mod 2 ^ 64`. -/
def add64 (a b : Nat) : Nat := (a + b) % W

/-- `size_t` subtraction for operands below `2 ^ 64`: wraps when `b > a`. -/
def sub64 (a b : Nat) : Nat := (a + W - b) % W

/-- One cache entry, mirroring `struct KeyValuePair { K key; V value; size_t size; }`. -/
structure KeyValuePair (K V : Type) where
  key : K
  value : V
  size : Nat
deriving DecidableEq, Repr

/-- The three exception types the cache throws. -/
inductive LRUErr where
  | KeyNotFound
  | TooLargeSize
  | CallBackFailed
deriving DecidableEq, Repr

/--
The cache state: the recency list `keys_` (head = most recently used), the
running weight `cacheSize_`, the configuration `maxSize_`/`elasticity_`
(spec names: soft limit / slack), and the configured remove callback.
-/
structure LRUCache (K V : Type) where
  keys_ : List (KeyValuePair K V)
  cacheSize_ : Nat
  maxSize_ : Nat
  elasticity_ : Nat
  removeCallback_ : Option (KeyValuePair K V → Bool)

variable {K V : Type}

/-- The predicate the source's `cache_.find(k)` answers on the implicit map. -/
def keyIs [DecidableEq K] (k : K) (e : KeyValuePair K V) : Bool := decide (e.key = k)

/-- Lookup of `k` in the implicit index: first entry of the list with key `k`. -/
def findKey [DecidableEq K] (k : K) (l : List (KeyValuePair K V)) :
    Option (KeyValuePair K V) := l.find? (keyIs k)

/-- Erasing the node of `k` from the list (the source erases through the
stored iterator; keys are never duplicated, so this is the first match). -/
def eraseKey [DecidableEq K] (k : K) (l : List (KeyValuePair K V)) :
    List (KeyValuePair K V) := l.eraseP (keyIs k)

/-- Running the remove callback on `e`: `true` when no callback is
configured or the callback returns normally, `false` when it throws. -/
def cbOk (cb : Option (KeyValuePair K V → Bool)) (e : KeyValuePair K V) : Bool :=
  (cb.map fun f => f e).getD true

/--
The body of `prune`'s `while (cacheSize_ > maxSize_)` loop, recursing over
the REVERSED recency list (so the head here is `keys_.back()`).  Returns
`(callbackFailed, remaining reversed list, cacheSize_)`; on a callback
failure the entries evicted so far stay evicted (the pass is not
transactional).  The `([], cacheSize)` case with `cacheSize > maxSize` is
`keys_.back()` on an empty list in the source — undefined behaviour —
and the embedding simply stops there.
-/
def pruneLoopRev (cb : Option (KeyValuePair K V → Bool)) (maxSize : Nat) :
    List (KeyValuePair K V) → Nat → Bool × List (KeyValuePair K V) × Nat
  | [], cacheSize => (false, [], cacheSize)
  | e :: rest, cacheSize =>
    if cacheSize ≤ maxSize then (false, e :: rest, cacheSize)
    else if cbOk cb e then pruneLoopRev cb maxSize rest (sub64 cacheSize e.size)
    else (true, e :: rest, cacheSize)

/--
`prune()`: returns `0` at once when `maxSize_ == 0` or
`cacheSize_ < maxSize_ + elasticity_`, otherwise evicts from the tail while
`cacheSize_ > maxSize_`.  The Boolean is `true` when the remove callback
threw (`CallBackFailed`), with the partially pruned state alongside.
-/
def prune (c : LRUCache K V) : Bool × LRUCache K V :=
  let maxAllowed := add64 c.maxSize_ c.elasticity_
  if c.maxSize_ = 0 ∨ c.cacheSize_ < maxAllowed then (false, c)
  else
    let r := pruneLoopRev c.removeCallback_ c.maxSize_ c.keys_.reverse c.cacheSize_
    (r.1, { c with keys_ := r.2.1.reverse, cacheSize_ := r.2.2 })

/--
`insert(k, v, s, ctx)`.  The per-call insert context and the insert
callback's own invocation do not touch the cache state and are elided (see
the module comment); `insertCallbackArg` below exposes what the callback
would be handed.  The result is the thrown exception (if any) together
with the state of the object at that point.
-/
def insert [DecidableEq K] (k : K) (v : V) (s : Nat) (c : LRUCache K V) :
    Option LRUErr × LRUCache K V :=
  match findKey k c.keys_ with
  | some e =>
    let size_diff := sub64 s e.size
    if size_diff > sub64 (add64 c.maxSize_ c.elasticity_) c.cacheSize_ then
      (some .TooLargeSize, c)
    else
      let c1 : LRUCache K V :=
        { c with keys_ := ⟨k, v, s⟩ :: eraseKey k c.keys_,
                 cacheSize_ := add64 c.cacheSize_ size_diff }
      let r := prune c1
      (if r.1 then some .CallBackFailed else none, r.2)
  | none =>
    if s > add64 c.maxSize_ c.elasticity_ then (some .TooLargeSize, c)
    else
      let c1 : LRUCache K V :=
        { c with keys_ := ⟨k, v, s⟩ :: c.keys_,
                 cacheSize_ := add64 c.cacheSize_ s }
      let r := prune c1
      (if r.1 then some .CallBackFailed else none, r.2)

/-- The entry `insert` passes to the insert callback right before
returning: `keys_.front()` of the post-prune state.  `none` means the list
is empty there and `front()` is undefined behaviour in the source. -/
def insertCallbackArg (c : LRUCache K V) : Option (KeyValuePair K V) := c.keys_.head?

/-- `get(k)`: `(thrown exception, returned value, state after)`. -/
def get [DecidableEq K] (k : K) (c : LRUCache K V) :
    Option LRUErr × Option V × LRUCache K V :=
  match findKey k c.keys_ with
  | none => (some .KeyNotFound, none, c)
  | some e => (none, some e.value, { c with keys_ := e :: eraseKey k c.keys_ })

/-- `remove(k)`: `(thrown exception, returned Bool, state after)`.  The
Bool component is meaningful only when no exception is thrown. -/
def remove [DecidableEq K] (k : K) (c : LRUCache K V) :
    Option LRUErr × Bool × LRUCache K V :=
  match findKey k c.keys_ with
  | none => (none, false, c)
  | some e =>
    if cbOk c.removeCallback_ e then
      (none, true, { c with keys_ := eraseKey k c.keys_,
                            cacheSize_ := sub64 c.cacheSize_ e.size })
    else (some .CallBackFailed, false, c)

/-- `contains(k)`. -/
def contains [DecidableEq K] (k : K) (c : LRUCache K V) : Bool :=
  (findKey k c.keys_).isSome

/-- `clear()`: empties `cache_` and `keys_`.  Note that the source does
NOT reset `cacheSize_`. -/
def clear (c : LRUCache K V) : LRUCache K V := { c with keys_ := [] }

/-- `size()`: returns `cacheSize_` (the total weight, not the entry count). -/
def size (c : LRUCache K V) : Nat := c.cacheSize_

/-- `empty()`: `cache_.empty()`, i.e. whether the implicit index is empty. -/
def emptyb (c : LRUCache K V) : Bool := c.keys_.isEmpty

/-- `updateSize(maxSize, elasticity)`: reconfigure, then `prune()`. -/
def updateSize (m e : Nat) (c : LRUCache K V) : Bool × LRUCache K V :=
  prune { c with maxSize_ := m, elasticity_ := e }

/-- The constructor `LRUCache(maxSize, elasticity, ...)`. -/
def mkCache (maxSize elasticity : Nat)
    (removeCallback : Option (KeyValuePair K V → Bool)) : LRUCache K V :=
  { keys_ := [], cacheSize_ := 0, maxSize_ := maxSize,
    elasticity_ := elasticity, removeCallback_ := removeCallback }

/-- Sum of the weights of the entries of a list. -/
def weightSum (l : List (KeyValuePair K V)) : Nat := (l.map (·.size)).sum

/-- `cacheSize_` agrees with the weights actually stored. -/
abbrev consistent (c : LRUCache K V) : Prop := c.cacheSize_ = weightSum c.keys_

/-- The recency list holds each key at most once (the source keeps the
list and the unique-key hash map in lockstep, so this always holds for
reachable states). -/
abbrev nodupKeys (c : LRUCache K V) : Prop := (c.keys_.map (·.key)).Nodup

/-! ### Operation sequences -/

/-- One public mutating call on the cache (the pure reads `size`,
`emptyb`, `contains` do not change the state). -/
inductive Op (K V : Type) where
  | ins (k : K) (v : V) (s : Nat)
  | getOp (k : K)
  | rem (k : K)
  | clr
  | upd (m e : Nat)
deriving DecidableEq

/-- The state after one call (whatever it returned or threw). -/
def applyOp [DecidableEq K] (o : Op K V) (c : LRUCache K V) : LRUCache K V :=
  match o with
  | .ins k v s => (insert k v s c).2
  | .getOp k => (get k c).2.2
  | .rem k => (remove k c).2.2
  | .clr => clear c
  | .upd m e => (updateSize m e c).2

/-- The state after a sequence of calls. -/
def applyOps [DecidableEq K] (ops : List (Op K V)) (c : LRUCache K V) : LRUCache K V :=
  ops.foldl (fun st o => applyOp o st) c

/-- Whether an `Op` reconfigures the cache to a nonzero soft limit. -/
def updZero : Op K V → Bool
  | .upd m _ => decide (m = 0)
  | _ => true

/-- Specification-side `insert` for the unbounded-cache claim: identical
to `insert` except that the eviction pass is omitted entirely. -/
def insertNoEviction [DecidableEq K] (k : K) (v : V) (s : Nat) (c : LRUCache K V) :
    Option LRUErr × LRUCache K V :=
  match findKey k c.keys_ with
  | some e =>
    let size_diff := sub64 s e.size
    if size_diff > sub64 (add64 c.maxSize_ c.elasticity_) c.cacheSize_ then
      (some .TooLargeSize, c)
    else
      (none, { c with keys_ := ⟨k, v, s⟩ :: eraseKey k c.keys_,
                      cacheSize_ := add64 c.cacheSize_ size_diff })
  | none =>
    if s > add64 c.maxSize_ c.elasticity_ then (some .TooLargeSize, c)
    else
      (none, { c with keys_ := ⟨k, v, s⟩ :: c.keys_,
                      cacheSize_ := add64 c.cacheSize_ s })

/-- Specification-side step for the unbounded-cache claim: like
`applyOp` but with every eviction pass omitted. -/
def applyOpNoEviction [DecidableEq K] (o : Op K V) (c : LRUCache K V) : LRUCache K V :=
  match o with
  | .ins k v s => (insertNoEviction k v s c).2
  | .getOp k => (get k c).2.2
  | .rem k => (remove k c).2.2
  | .clr => clear c
  | .upd m e => { c with maxSize_ := m, elasticity_ := e }

/-- Specification-side sequence semantics with no eviction at all. -/
def applyOpsNoEviction [DecidableEq K] (ops : List (Op K V)) (c : LRUCache K V) :
    LRUCache K V :=
  ops.foldl (fun st o => applyOpNoEviction o st) c

/-! ### Concrete states used by the concrete-input theorems -/

/-- `LRUCache(64, 10)` after `insert(1, 1, 2)` followed by `clear()`. -/
def exClear : LRUCache Nat Nat := clear (insert 1 1 2 (mkCache 64 10 none)).2

/-- `LRUCache(3, 0)` after inserting keys `1, 2, 3, 4` (weight 1 each,
in that order): the spec's A, B, C, D scenario. -/
def exABCD : LRUCache Nat Nat :=
  (insert 4 4 1 (insert 3 3 1 (insert 2 2 1 (insert 1 1 1 (mkCache 3 0 none)).2).2).2).2

/-- `exABCD` after the subsequent `insert(5, 5, 1)`: the spec's E. -/
def exABCDE : LRUCache Nat Nat := (insert 5 5 1 exABCD).2

/-- `LRUCache(3, 2)`: inserting a single entry of weight `5 = 3 + 2`
into the empty cache is admitted, then fully evicted again. -/
def exBigInsert : Option LRUErr × LRUCache Nat Nat := insert 1 1 5 (mkCache 3 2 none)

/-- A one-entry cache whose remove callback always succeeds. -/
def exOneEntry : LRUCache Nat Nat :=
  { keys_ := [⟨1, 7, 2⟩], cacheSize_ := 2, maxSize_ := 64, elasticity_ := 10,
    removeCallback_ := some fun _ => true }

/-! ### Arithmetic helper lemmas -/

theorem W_pos : 0 < W := by decide

theorem add64_eq_of_lt {a b : Nat} (h : a + b < W) : add64 a b = a + b :=
  Nat.mod_eq_of_lt h

theorem sub64_eq_sub {a b : Nat} (hba : b ≤ a) (ha : a < W) : sub64 a b = a - b := by
  unfold sub64
  have h1 : a + W - b = W + (a - b) := by omega
  have h2 : a - b < W := by omega
  rw [h1, Nat.add_mod_left, Nat.mod_eq_of_lt h2]

theorem sub64_wrap {a b : Nat} (hab : a < b) (hb : b < W) : sub64 a b = W - (b - a) := by
  unfold sub64
  have h1 : a + W - b = W - (b - a) := by omega
  have h2 : W - (b - a) < W := by omega
  rw [h1, Nat.mod_eq_of_lt h2]

/-! ### List helper lemmas -/

theorem weightSum_reverse (l : List (KeyValuePair K V)) :
    weightSum l.reverse = weightSum l := by
  unfold weightSum
  rw [List.map_reverse, List.sum_reverse]

theorem weightSum_cons (e : KeyValuePair K V) (l : List (KeyValuePair K V)) :
    weightSum (e :: l) = e.size + weightSum l := by
  simp [weightSum]

theorem findKey_size_le [DecidableEq K] {k : K} {l : List (KeyValuePair K V)}
    {e : KeyValuePair K V} (h : findKey k l = some e) : e.size ≤ weightSum l := by
  induction l with
  | nil => simp [findKey] at h
  | cons a l ih =>
    rw [findKey, List.find?_cons] at h
    rw [weightSum_cons]
    cases hpa : keyIs k a with
    | true =>
      rw [hpa] at h
      injection h with h
      subst h
      exact Nat.le_add_right _ _
    | false =>
      rw [hpa] at h
      have := ih h
      omega

theorem weightSum_eraseKey [DecidableEq K] {k : K} {l : List (KeyValuePair K V)}
    {e : KeyValuePair K V} (h : findKey k l = some e) :
    weightSum (eraseKey k l) = weightSum l - e.size := by
  induction l with
  | nil => simp [findKey] at h
  | cons a l ih =>
    rw [findKey, List.find?_cons] at h
    cases hpa : keyIs k a with
    | true =>
      rw [hpa] at h
      injection h with h
      subst h
      rw [eraseKey, List.eraseP_cons, hpa, cond_true, weightSum_cons]
      omega
    | false =>
      rw [hpa] at h
      have hle := findKey_size_le (l := l) h
      rw [eraseKey, List.eraseP_cons, hpa, cond_false, weightSum_cons, weightSum_cons,
        ← eraseKey, ih h]
      omega

theorem findKey_keyIs [DecidableEq K] {k : K} {l : List (KeyValuePair K V)}
    {e : KeyValuePair K V} (h : findKey k l = some e) : e.key = k := by
  have := List.find?_some h
  simpa [keyIs] using this

/-- Erasing the matched entry drops no unmatched entry: the sublist of
entries with other keys is untouched (this is the relative-order fact). -/
theorem filter_eraseP {p q : α → Bool} (l : List α)
    (h : ∀ x, q x = true → p x = false) : (l.eraseP q).filter p = l.filter p := by
  induction l with
  | nil => rfl
  | cons a l ih =>
    rw [List.eraseP_cons]
    cases hqa : q a with
    | true =>
      rw [cond_true, List.filter_cons, h a hqa]
      simp
    | false =>
      rw [cond_false, List.filter_cons, List.filter_cons]
      cases p a <;> simp [ih]

theorem findKey_eraseKey_of_nodup [DecidableEq K] {k : K}
    {l : List (KeyValuePair K V)} (h : (l.map (·.key)).Nodup) :
    findKey k (eraseKey k l) = none := by
  induction l with
  | nil => rfl
  | cons a l ih =>
    rw [List.map_cons, List.nodup_cons] at h
    rw [eraseKey, List.eraseP_cons]
    cases hpa : keyIs k a with
    | true =>
      rw [cond_true, findKey, List.find?_eq_none]
      intro x hx
      simp only [keyIs, decide_eq_true_eq] at hpa ⊢
      intro hxk
      apply h.1
      rw [hpa, ← hxk]
      exact List.mem_map_of_mem _ hx
    | false =>
      rw [cond_false, findKey, List.find?_cons, hpa]
      exact ih h.2

/-! ### Prune lemmas -/

theorem prune_maxSize_zero (c : LRUCache K V) (h : c.maxSize_ = 0) :
    prune c = (false, c) := by
  simp only [prune]
  rw [if_pos (Or.inl h)]

theorem prune_skip (c : LRUCache K V)
    (h : c.cacheSize_ < add64 c.maxSize_ c.elasticity_) : prune c = (false, c) := by
  simp only [prune]
  rw [if_pos (Or.inr h)]

theorem prune_config (c : LRUCache K V) :
    (prune c).2.maxSize_ = c.maxSize_ ∧ (prune c).2.elasticity_ = c.elasticity_ := by
  simp only [prune]
  split
  · exact ⟨rfl, rfl⟩
  · exact ⟨rfl, rfl⟩

theorem pruneLoopRev_le (cb : Option (KeyValuePair K V → Bool)) (m : Nat)
    (l : List (KeyValuePair K V)) (cs : Nat) (hcs : cs = weightSum l) (hW : cs < W) :
    (pruneLoopRev cb m l cs).1 = true ∨ (pruneLoopRev cb m l cs).2.2 ≤ m := by
  induction l generalizing cs with
  | nil =>
    right
    simp only [pruneLoopRev]
    simp [weightSum] at hcs
    omega
  | cons e rest ih =>
    simp only [pruneLoopRev]
    by_cases hle : cs ≤ m
    · right
      simp [hle]
    · rw [if_neg hle]
      by_cases hcb : cbOk cb e = true
      · rw [if_pos hcb]
        have hsz : e.size ≤ cs := by
          rw [hcs, weightSum_cons]
          exact Nat.le_add_right _ _
        apply ih
        · rw [sub64_eq_sub hsz hW, hcs, weightSum_cons]
          omega
        · rw [sub64_eq_sub hsz hW]
          omega
      · rw [if_neg hcb]
        left
        rfl

theorem prune_bound (c : LRUCache K V) (hc : consistent c) (hW : c.cacheSize_ < W)
    (hm : c.maxSize_ ≠ 0) (hma : c.maxSize_ + c.elasticity_ < W) :
    (prune c).1 = true ∨ (prune c).2.cacheSize_ ≤ c.maxSize_ ∨
      (prune c).2.cacheSize_ < c.maxSize_ + c.elasticity_ := by
  by_cases hlt : c.cacheSize_ < add64 c.maxSize_ c.elasticity_
  · rw [prune_skip c hlt]
    right; right
    rwa [add64_eq_of_lt hma] at hlt
  · simp only [prune]
    rw [if_neg (by rintro (h | h); exact hm h; exact hlt h)]
    have h := pruneLoopRev_le c.removeCallback_ c.maxSize_ c.keys_.reverse c.cacheSize_
      (by rw [hc, weightSum_reverse]) hW
    rcases h with h | h
    · left; exact h
    · right; left; exact h

/-! ### Insert decomposition lemmas -/

/-- `insert` is `insertNoEviction` followed (on success) by the eviction
pass, whose callback failure surfaces as `CallBackFailed`. -/
theorem insert_eq_prune_insertNE [DecidableEq K] (k : K) (v : V) (s : Nat)
    (c : LRUCache K V) :
    insert k v s c =
      if (insertNoEviction k v s c).1 = none then
        ((if (prune (insertNoEviction k v s c).2).1 then some LRUErr.CallBackFailed
          else none),
         (prune (insertNoEviction k v s c).2).2)
      else insertNoEviction k v s c := by
  cases hfind : findKey k c.keys_ with
  | none =>
    simp only [insert, insertNoEviction, hfind]
    split
    · simp
    · simp
  | some e =>
    simp only [insert, insertNoEviction, hfind]
    split
    · simp
    · simp

theorem insertNE_config [DecidableEq K] (k : K) (v : V) (s : Nat) (c : LRUCache K V) :
    (insertNoEviction k v s c).2.maxSize_ = c.maxSize_ ∧
    (insertNoEviction k v s c).2.elasticity_ = c.elasticity_ := by
  cases hfind : findKey k c.keys_ with
  | none =>
    simp only [insertNoEviction, hfind]
    split
    · exact ⟨rfl, rfl⟩
    · exact ⟨rfl, rfl⟩
  | some e =>
    simp only [insertNoEviction, hfind]
    split
    · exact ⟨rfl, rfl⟩
    · exact ⟨rfl, rfl⟩

theorem insertNE_consistent [DecidableEq K] (k : K) (v : V) (s : Nat)
    (c : LRUCache K V) (hc : consistent c) (hs : c.cacheSize_ + s < W)
    (h : (insertNoEviction k v s c).1 = none) :
    consistent (insertNoEviction k v s c).2 ∧
    (insertNoEviction k v s c).2.cacheSize_ ≤ c.cacheSize_ + s := by
  cases hfind : findKey k c.keys_ with
  | none =>
    by_cases hbig : s > add64 c.maxSize_ c.elasticity_
    · exfalso
      simp [insertNoEviction, hfind, hbig] at h
    · have hst : insertNoEviction k v s c =
          (none, { c with keys_ := ⟨k, v, s⟩ :: c.keys_,
                          cacheSize_ := add64 c.cacheSize_ s }) := by
        simp [insertNoEviction, hfind, hbig]
      rw [hst]
      constructor
      · show add64 c.cacheSize_ s = weightSum (⟨k, v, s⟩ :: c.keys_)
        rw [weightSum_cons, add64_eq_of_lt hs]
        show c.cacheSize_ + s = s + weightSum c.keys_
        omega
      · show add64 c.cacheSize_ s ≤ c.cacheSize_ + s
        rw [add64_eq_of_lt hs]
  | some e =>
    have hesz : e.size ≤ c.cacheSize_ := hc ▸ findKey_size_le hfind
    have hsum := weightSum_eraseKey hfind
    by_cases hbig : sub64 s e.size > sub64 (add64 c.maxSize_ c.elasticity_) c.cacheSize_
    · exfalso
      simp [insertNoEviction, hfind, hbig] at h
    · have hnew : add64 c.cacheSize_ (sub64 s e.size) = c.cacheSize_ - e.size + s := by
        rcases Nat.lt_or_ge s e.size with hlt | hge
        · rw [sub64_wrap hlt (by omega)]
          unfold add64
          have h1 : c.cacheSize_ + (W - (e.size - s)) = W + (c.cacheSize_ - (e.size - s)) := by
            omega
          rw [h1, Nat.add_mod_left, Nat.mod_eq_of_lt (by omega)]
          omega
        · rw [sub64_eq_sub hge (by omega), add64_eq_of_lt (by omega)]
          omega
      have hst : insertNoEviction k v s c =
          (none, { c with keys_ := ⟨k, v, s⟩ :: eraseKey k c.keys_,
                          cacheSize_ := add64 c.cacheSize_ (sub64 s e.size) }) := by
        simp [insertNoEviction, hfind, hbig]
      rw [hst]
      constructor
      · show add64 c.cacheSize_ (sub64 s e.size) = weightSum (⟨k, v, s⟩ :: eraseKey k c.keys_)
        rw [hnew, weightSum_cons, hsum]
        show c.cacheSize_ - e.size + s = s + (weightSum c.keys_ - e.size)
        omega
      · show add64 c.cacheSize_ (sub64 s e.size) ≤ c.cacheSize_ + s
        rw [hnew]
        omega

theorem insert_success_bound [DecidableEq K] (k : K) (v : V) (s : Nat)
    (c : LRUCache K V) (hc : consistent c) (hs : c.cacheSize_ + s < W)
    (hma : c.maxSize_ + c.elasticity_ < W) (hm : c.maxSize_ ≠ 0)
    (h : (insert k v s c).1 = none) :
    (insert k v s c).2.cacheSize_ ≤ c.maxSize_ ∨
      (insert k v s c).2.cacheSize_ < c.maxSize_ + c.elasticity_ := by
  rw [insert_eq_prune_insertNE] at h ⊢
  by_cases hne : (insertNoEviction k v s c).1 = none
  · rw [if_pos hne] at h ⊢
    have hcons := insertNE_consistent k v s c hc hs hne
    have hcfg := insertNE_config k v s c
    have hb := prune_bound (insertNoEviction k v s c).2 hcons.1 (by omega)
      (by rw [hcfg.1]; exact hm) (by rw [hcfg.1, hcfg.2]; exact hma)
    have hfail : (prune (insertNoEviction k v s c).2).1 = false := by
      by_contra hx
      rw [Bool.not_eq_false] at hx
      simp [hx] at h
    rcases hb with hb | hb | hb
    · rw [hb] at hfail
      exact absurd hfail (by simp)
    · left
      rw [hcfg.1] at hb
      exact hb
    · right
      rw [hcfg.1, hcfg.2] at hb
      exact hb
  · rw [if_neg hne] at h
    exact absurd h hne

theorem updateSize_success_bound (m el : Nat) (c : LRUCache K V) (hc : consistent c)
    (hW : c.cacheSize_ < W) (hm : m ≠ 0) (hmel : m + el < W)
    (h : (updateSize m el c).1 = false) :
    (updateSize m el c).2.cacheSize_ ≤ m ∨ (updateSize m el c).2.cacheSize_ < m + el := by
  have hb := prune_bound { c with maxSize_ := m, elasticity_ := el } hc hW hm hmel
  rcases hb with hb | hb | hb
  · rw [updateSize] at h
    rw [hb] at h
    exact absurd h (by simp)
  · left
    exact hb
  · right
    exact hb

/--
Claim C4: in any state whose `cacheSize_` is the sum of the stored
weights and is within the hard limit `softLimit + slack`, an `insert` of
a present key with a SMALLER weight (negative delta) always throws
`TooLargeSize` and mutates nothing — contrary to the claim, which says
such an insert succeeds: the `size_t` difference `s - prev_size` wraps
around to a value above any possible `softLimit + slack - currentWeight`.
-/
theorem insert_weight_decrease_fails [DecidableEq K] (k : K) (v : V) (s : Nat)
    (c : LRUCache K V) (e : KeyValuePair K V) (hc : consistent c)
    (hW : c.cacheSize_ < W) (hle : c.cacheSize_ ≤ c.maxSize_ + c.elasticity_)
    (hma : c.maxSize_ + c.elasticity_ < W)
    (hfind : findKey k c.keys_ = some e) (hdec : s < e.size) :
    insert k v s c = (some LRUErr.TooLargeSize, c) := by
  have hesz : e.size ≤ c.cacheSize_ := hc ▸ findKey_size_le hfind
  have hdiff : sub64 s e.size = W - (e.size - s) := sub64_wrap hdec (by omega)
  have hRHS : sub64 (add64 c.maxSize_ c.elasticity_) c.cacheSize_
      = c.maxSize_ + c.elasticity_ - c.cacheSize_ := by
    rw [add64_eq_of_lt hma]
    exact sub64_eq_sub hle hma
  have hcond : sub64 s e.size > sub64 (add64 c.maxSize_ c.elasticity_) c.cacheSize_ := by
    rw [hdiff, hRHS]
    omega
  simp only [insert, hfind]
  rw [if_pos hcond]

/-! ### Field-preservation lemmas -/

theorem insert_maxSize [DecidableEq K] (k : K) (v : V) (s : Nat) (c : LRUCache K V) :
    (insert k v s c).2.maxSize_ = c.maxSize_ := by
  rw [insert_eq_prune_insertNE]
  by_cases hne : (insertNoEviction k v s c).1 = none
  · rw [if_pos hne]
    show (prune (insertNoEviction k v s c).2).2.maxSize_ = c.maxSize_
    rw [(prune_config _).1, (insertNE_config k v s c).1]
  · rw [if_neg hne]
    exact (insertNE_config k v s c).1

theorem get_state [DecidableEq K] (k : K) (c : LRUCache K V) :
    (get k c).2.2 = c ∨
      ∃ e, findKey k c.keys_ = some e ∧
        (get k c).2.2 = { c with keys_ := e :: eraseKey k c.keys_ } := by
  cases hfind : findKey k c.keys_ with
  | none =>
    left
    simp [get, hfind]
  | some e =>
    right
    exact ⟨e, rfl, by simp [get, hfind]⟩

theorem remove_maxSize [DecidableEq K] (k : K) (c : LRUCache K V) :
    (remove k c).2.2.maxSize_ = c.maxSize_ := by
  cases hfind : findKey k c.keys_ with
  | none => simp [remove, hfind]
  | some e =>
    by_cases hcb : cbOk c.removeCallback_ e = true
    · simp [remove, hfind, hcb]
    · simp [remove, hfind, hcb]

/-! ### The unbounded configuration never evicts -/

theorem applyOp_unbounded [DecidableEq K] (o : Op K V) (c : LRUCache K V)
    (h0 : c.maxSize_ = 0) (ho : updZero o = true) :
    applyOp o c = applyOpNoEviction o c ∧ (applyOp o c).maxSize_ = 0 := by
  cases o with
  | ins k v s =>
    have heq : applyOp (.ins k v s) c = applyOpNoEviction (.ins k v s) c := by
      simp only [applyOp, applyOpNoEviction]
      rw [insert_eq_prune_insertNE]
      by_cases hne : (insertNoEviction k v s c).1 = none
      · rw [if_pos hne]
        show (prune (insertNoEviction k v s c).2).2 = (insertNoEviction k v s c).2
        rw [prune_maxSize_zero _ (by rw [(insertNE_config k v s c).1]; exact h0)]
      · rw [if_neg hne]
    refine ⟨heq, ?_⟩
    show (insert k v s c).2.maxSize_ = 0
    rw [insert_maxSize]
    exact h0
  | getOp k =>
    refine ⟨rfl, ?_⟩
    show (get k c).2.2.maxSize_ = 0
    rcases get_state k c with h | ⟨e, _, h⟩
    · rw [h]; exact h0
    · rw [h]; exact h0
  | rem k =>
    refine ⟨rfl, ?_⟩
    show (remove k c).2.2.maxSize_ = 0
    rw [remove_maxSize]
    exact h0
  | clr => exact ⟨rfl, h0⟩
  | upd m e =>
    have hm : m = 0 := by simpa [updZero] using ho
    subst hm
    constructor
    · show (updateSize 0 e c).2 = { c with maxSize_ := 0, elasticity_ := e }
      rw [updateSize, prune_maxSize_zero _ rfl]
    · show (updateSize 0 e c).2.maxSize_ = 0
      rw [updateSize, prune_maxSize_zero _ rfl]

theorem applyOps_unbounded [DecidableEq K] (ops : List (Op K V)) (c : LRUCache K V)
    (h0 : c.maxSize_ = 0) (hupd : ops.all updZero = true) :
    applyOps ops c = applyOpsNoEviction ops c ∧ (applyOps ops c).maxSize_ = 0 := by
  induction ops generalizing c with
  | nil => exact ⟨rfl, h0⟩
  | cons o rest ih =>
    rw [List.all_cons, Bool.and_eq_true] at hupd
    have h1 := applyOp_unbounded o c h0 hupd.1
    have h2 := ih (applyOp o c) h1.2 hupd.2
    constructor
    · show applyOps rest (applyOp o c) = applyOpsNoEviction rest (applyOpNoEviction o c)
      rw [← h1.1]
      exact h2.1
    · exact h2.2

/-! ### Claim theorems -/

/--
Claim C6: `remove` on an absent key returns `false` and changes nothing.
On a present key the remove callback runs first; if it fails the call
throws `CallBackFailed` and the state is unchanged (the key is NOT
removed).  Otherwise `remove` returns `true`, erases the entry from the
recency list (and thereby from the implicit index), decrements
`cacheSize_` by exactly the entry's weight, and `contains` then fails.
-/
theorem remove_spec [DecidableEq K] (k : K) (c : LRUCache K V)
    (hc : consistent c) (hW : c.cacheSize_ < W) (hn : nodupKeys c) :
    (findKey k c.keys_ = none → remove k c = (none, false, c)) ∧
    (∀ e, findKey k c.keys_ = some e → cbOk c.removeCallback_ e = false →
      remove k c = (some LRUErr.CallBackFailed, false, c)) ∧
    (∀ e, findKey k c.keys_ = some e → cbOk c.removeCallback_ e = true →
      (remove k c).1 = none ∧ (remove k c).2.1 = true ∧
      (remove k c).2.2.keys_ = eraseKey k c.keys_ ∧
      (remove k c).2.2.cacheSize_ = c.cacheSize_ - e.size ∧
      contains k (remove k c).2.2 = false) := by
  refine ⟨fun hf => by simp [remove, hf],
    fun e hf hcb => by simp [remove, hf, hcb],
    fun e hf hcb => ?_⟩
  have hesz : e.size ≤ c.cacheSize_ := hc ▸ findKey_size_le hf
  have hrw : remove k c =
      (none, true, { c with keys_ := eraseKey k c.keys_,
                            cacheSize_ := sub64 c.cacheSize_ e.size }) := by
    simp [remove, hf, hcb]
  rw [hrw]
  refine ⟨rfl, rfl, rfl, sub64_eq_sub hesz hW, ?_⟩
  show (findKey k (eraseKey k c.keys_)).isSome = false
  rw [findKey_eraseKey_of_nodup hn]
  rfl

/--
Claim C7: `get` of an absent key throws `KeyNotFound` and changes
nothing; `get` of a present key returns its stored value and moves its
entry to the head of the recency list.  A repeated `get` of the same key
without an intervening mutation returns the same value and leaves the
state exactly as it was, and a `get` never changes the relative order of
the entries with other keys.
-/
theorem get_spec [DecidableEq K] (k : K) (c : LRUCache K V) :
    (findKey k c.keys_ = none → get k c = (some LRUErr.KeyNotFound, none, c)) ∧
    (∀ e, findKey k c.keys_ = some e →
      get k c = (none, some e.value, { c with keys_ := e :: eraseKey k c.keys_ }) ∧
      get k (get k c).2.2 = (none, some e.value, (get k c).2.2) ∧
      (get k c).2.2.keys_.filter (fun x => ! keyIs k x) =
        c.keys_.filter (fun x => ! keyIs k x)) := by
  refine ⟨fun hf => by simp [get, hf], fun e hf => ?_⟩
  have hke : keyIs k e = true := by
    simp [keyIs, findKey_keyIs hf]
  have h1 : get k c = (none, some e.value, { c with keys_ := e :: eraseKey k c.keys_ }) := by
    simp [get, hf]
  refine ⟨h1, ?_, ?_⟩
  · rw [h1]
    have hf2 : findKey k (e :: eraseKey k c.keys_) = some e := by
      rw [findKey, List.find?_cons, hke]
    have herase : eraseKey k (e :: eraseKey k c.keys_) = eraseKey k c.keys_ := by
      rw [eraseKey, List.eraseP_cons, hke, cond_true]
    show get k { c with keys_ := e :: eraseKey k c.keys_ } = _
    simp [get, hf2, herase]
  · rw [h1]
    show (e :: eraseKey k c.keys_).filter (fun x => ! keyIs k x) =
      c.keys_.filter (fun x => ! keyIs k x)
    rw [List.filter_cons]
    simp only [hke, Bool.not_true, if_neg (by simp : ¬(false = true))]
    exact filter_eraseP _ (fun x hx => by simp [hx])

/--
Claim C1 (failing input): after `LRUCache(64,10); insert(1,1,2); clear()`
the recency list is empty but `cacheSize_` is still `2`: `clear()` does
not reset `cacheSize_`, so `currentWeight` no longer equals the sum of
the present entries' weights (which is `0`).
-/
theorem clear_breaks_weight_invariant :
    exClear.keys_ = [] ∧ exClear.cacheSize_ = 2 ∧ weightSum exClear.keys_ = 0 ∧
      exClear.cacheSize_ ≠ weightSum exClear.keys_ := by decide

/--
Claim C2 (failing input): after `LRUCache(64,10); insert(1,1,2); clear()`
the call `size()` returns the stale `cacheSize_ = 2`, not `0`, while
`empty()` does return `true` (and `clear`, by its definition above, never
touches the remove callback).
-/
theorem clear_size_stale :
    size exClear = 2 ∧ size exClear ≠ 0 ∧ emptyb exClear = true := by decide

/--
Claim C3 (counterexample): with `softLimit = 3` and `slack = 10`, a
single insert of weight 5 into the empty cache succeeds and leaves
`currentWeight = 5 > softLimit = 3`: the eviction pass did not run down
to the soft limit, because it only starts once
`currentWeight ≥ softLimit + slack`.
-/
theorem resting_level_counterexample :
    (insert 1 1 5 (mkCache 3 10 none : LRUCache Nat Nat)).1 = none ∧
    (mkCache 3 10 none : LRUCache Nat Nat).maxSize_ = 3 ∧
    3 < (insert 1 1 5 (mkCache 3 10 none : LRUCache Nat Nat)).2.cacheSize_ := by decide

/--
Claim C3 (amended): the eviction pass runs after every `insert` and
`updateSize`, but begins evicting only once
`currentWeight ≥ softLimit + slack` — below that threshold `prune` is the
identity; once it begins, it evicts the tail until
`currentWeight ≤ softLimit`.  Hence after a successful `insert` or
`updateSize` with nonzero soft limit on a consistent state, either
`currentWeight ≤ softLimit` (eviction ran) or
`currentWeight < softLimit + slack` (eviction was not yet due).
-/
theorem eviction_onset_and_resting_level [DecidableEq K] (k : K) (v : V)
    (s m el : Nat) (c : LRUCache K V) (hc : consistent c)
    (hs : c.cacheSize_ + s < W) (hma : c.maxSize_ + c.elasticity_ < W)
    (hm0 : c.maxSize_ ≠ 0) (hm : m ≠ 0) (hmel : m + el < W) :
    (c.cacheSize_ < c.maxSize_ + c.elasticity_ → prune c = (false, c)) ∧
    ((insert k v s c).1 = none →
      (insert k v s c).2.cacheSize_ ≤ c.maxSize_ ∨
        (insert k v s c).2.cacheSize_ < c.maxSize_ + c.elasticity_) ∧
    ((updateSize m el c).1 = false →
      (updateSize m el c).2.cacheSize_ ≤ m ∨
        (updateSize m el c).2.cacheSize_ < m + el) :=
  ⟨fun h => prune_skip c (by rwa [add64_eq_of_lt hma]),
   fun h => insert_success_bound k v s c hc hs hma hm0 h,
   fun h => updateSize_success_bound m el c hc (by omega) hm hmel h⟩

/-- Witness for the amended C3 theorem: `LRUCache(4,2)`, `insert(1,1,1)`,
`updateSize(3,1)`. -/
theorem eviction_onset_and_resting_level_witness :
    ((mkCache 4 2 none : LRUCache Nat Nat).cacheSize_ <
        (mkCache 4 2 none : LRUCache Nat Nat).maxSize_ +
          (mkCache 4 2 none : LRUCache Nat Nat).elasticity_ →
      prune (mkCache 4 2 none : LRUCache Nat Nat) = (false, mkCache 4 2 none)) ∧
    ((insert 1 1 1 (mkCache 4 2 none : LRUCache Nat Nat)).1 = none →
      (insert 1 1 1 (mkCache 4 2 none : LRUCache Nat Nat)).2.cacheSize_ ≤ 4 ∨
        (insert 1 1 1 (mkCache 4 2 none : LRUCache Nat Nat)).2.cacheSize_ < 4 + 2) ∧
    ((updateSize 3 1 (mkCache 4 2 none : LRUCache Nat Nat)).1 = false →
      (updateSize 3 1 (mkCache 4 2 none : LRUCache Nat Nat)).2.cacheSize_ ≤ 3 ∨
        (updateSize 3 1 (mkCache 4 2 none : LRUCache Nat Nat)).2.cacheSize_ < 3 + 1) :=
  eviction_onset_and_resting_level 1 1 1 3 1 (mkCache 4 2 none)
    (by decide) (by decide) (by decide) (by decide) (by decide) (by decide)

/-- Witness for the C4 theorem: `LRUCache(10,0)`, `insert(1,1,5)`, then
`insert(1,2,3)` (shrinking the weight from 5 to 3) throws `TooLargeSize`
and leaves the state untouched. -/
theorem insert_weight_decrease_fails_witness :
    insert 1 2 3 (insert 1 1 5 (mkCache 10 0 none : LRUCache Nat Nat)).2
      = (some LRUErr.TooLargeSize, (insert 1 1 5 (mkCache 10 0 none : LRUCache Nat Nat)).2) :=
  insert_weight_decrease_fails 1 2 3 (insert 1 1 5 (mkCache 10 0 none : LRUCache Nat Nat)).2
    ⟨1, 1, 5⟩ (by decide) (by decide) (by decide) (by decide) (by decide) (by decide)

/--
Claim C5 (counterexample): with `softLimit = 3, slack = 0` and keys
`1,2,3,4,5` for A,B,C,D,E, key 1 (A) is already gone before E is
inserted — it was evicted when D was inserted — and inserting E evicts
key 2 (B), so afterwards the cache does NOT contain B.
-/
theorem eviction_ordering_counterexample :
    contains 1 exABCD = false ∧ contains 2 exABCDE = false := by decide

/--
Claim C5 (amended): inserting keys 1,2,3,4 (weight 1 each) into an empty
`LRUCache(3,0)` evicts key 1 during the insert of key 4 (with zero slack
the pass fires as soon as the weight reaches 3+0 and prunes back to the
soft limit), and the subsequent insert of key 5 evicts key 2: the cache
then holds exactly `[5,4,3]` (most- to least-recently used), total
weight 3.
-/
theorem eviction_ordering_amended :
    exABCD.keys_.map (·.key) = [4, 3, 2] ∧
    exABCDE.keys_.map (·.key) = [5, 4, 3] ∧
    exABCDE.cacheSize_ = 3 := by decide

/-- Witness for the C6 theorem at a one-entry cache whose callback
succeeds: `remove 1` succeeds, erases the entry, decrements the weight
and makes `contains` fail. -/
theorem remove_spec_witness :
    (remove 1 exOneEntry).1 = none ∧ (remove 1 exOneEntry).2.1 = true ∧
    (remove 1 exOneEntry).2.2.keys_ = eraseKey 1 exOneEntry.keys_ ∧
    (remove 1 exOneEntry).2.2.cacheSize_ = exOneEntry.cacheSize_ - 2 ∧
    contains 1 (remove 1 exOneEntry).2.2 = false :=
  (remove_spec 1 exOneEntry (by decide) (by decide) (by decide)).2.2 ⟨1, 7, 2⟩ rfl rfl

/-- Witness for the C7 theorem at a one-entry cache: `get 1` returns the
stored value 7, a second `get 1` returns the same value and the same
state, and the entries with other keys are untouched. -/
theorem get_spec_witness :
    get 1 exOneEntry
        = (none, some 7, { exOneEntry with keys_ := ⟨1, 7, 2⟩ :: eraseKey 1 exOneEntry.keys_ }) ∧
    get 1 (get 1 exOneEntry).2.2 = (none, some 7, (get 1 exOneEntry).2.2) ∧
    (get 1 exOneEntry).2.2.keys_.filter (fun x => ! keyIs 1 x) =
      exOneEntry.keys_.filter (fun x => ! keyIs 1 x) :=
  (get_spec 1 exOneEntry).2 ⟨1, 7, 2⟩ rfl

/--
Claim C8 (failing input): inserting a single entry of weight `5` into an
empty `LRUCache(3,2)` is admitted (`5 ≤ softLimit + slack`), the eviction
pass then removes that very entry (`5 ≥ 3+2` starts the pass, which
prunes to `≤ 3`), and the recency list is EMPTY at the point where the
insert callback would be invoked with `keys_.front()` — the head entry is
not well-defined there.
-/
theorem insert_callback_sees_empty_list :
    exBigInsert.1 = none ∧ exBigInsert.2.keys_ = [] ∧
      insertCallbackArg exBigInsert.2 = none := by decide

/--
Claim C9: starting from a cache configured with `softLimit = 0` and
applying any sequence of operations whose reconfigurations keep the soft
limit at 0, the run is identical to the specification-side semantics in
which the eviction pass is omitted entirely: eviction never removes any
entry, no matter how large `cacheSize_` grows.
-/
theorem unbounded_no_eviction [DecidableEq K] (ops : List (Op K V)) (c : LRUCache K V)
    (h0 : c.maxSize_ = 0) (hupd : ops.all updZero = true) :
    applyOps ops c = applyOpsNoEviction ops c :=
  (applyOps_unbounded ops c h0 hupd).1

/-- Witness for the C9 theorem on a concrete six-operation sequence with
weights far above the (disabled) limit. -/
theorem unbounded_no_eviction_witness :
    applyOps [Op.ins 1 1 100, Op.ins 2 2 200, Op.getOp 1, Op.rem 2, Op.upd 0 5,
        Op.ins 3 3 1000] (mkCache 0 10 none : LRUCache Nat Nat)
      = applyOpsNoEviction [Op.ins 1 1 100, Op.ins 2 2 200, Op.getOp 1, Op.rem 2,
        Op.upd 0 5, Op.ins 3 3 1000] (mkCache 0 10 none : LRUCache Nat Nat) :=
  unbounded_no_eviction _ (mkCache 0 10 none) rfl (by decide)

end lru
